import Mathlib

/-
Verification development for the harvesttime repository.

The repository contains three Electron-based media harvesters.  The main
file harvest-grok-imagine-v2.js holds two variants: an API-pagination
harvester (the "v1 scheduler" below: downloadQueue / activeDownloads /
checkQueue / downloadFile / handleDownloadError / addToQueue /
embedMetadata / sanitizePrompt) and a browser-scraping harvester (the
"v2" model below: the will-download handler with its stall timer,
backpressure watermarks and retriesLeft bookkeeping, and startScraping
with its extension-stripped dedup set).  A third variant (part_000)
downloads Google-Photos orphans: getTargets plus another will-download
stall-timer handler.

Each section below embeds the relevant source functions as executable
Lean definitions; the theorems at the end settle the specification
claims against those definitions.
-/

set_option maxHeartbeats 1000000

/-! ## Configuration constants (CONFIG in harvest-grok-imagine-v2.js) -/

def CONCURRENT_DOWNLOADS : Nat := 5

def DOWNLOAD_RETRIES : Nat := 3

/-- The throttling part of CONFIG from harvest-grok-imagine-v2.js. -/
structure Cfg where
  limit : Nat
  retries : Nat
  deriving DecidableEq

def CONFIG : Cfg := ⟨CONCURRENT_DOWNLOADS, DOWNLOAD_RETRIES⟩

/-! ## The v1 scheduler (downloadQueue / activeDownloads / checkQueue /
downloadFile / handleDownloadError)

Tasks are identified by a numeric id.  `queue` is `downloadQueue` (FIFO,
head = next to shift).  `active` lists the in-flight `downloadFile`
invocations together with their `retryCount` argument; the source's
`activeDownloads` counter is `active.length`.  `timers` lists the
pending `setTimeout(() => downloadFile(task, retryCount + 1), 2000)`
callbacks scheduled by the retry branch of `handleDownloadError`.
`processed` is `processedIds`; `attempts` is a ghost log recording one
entry per started download attempt.  The stats fields mirror
`harvestStats`; `unlinked` records the temp files deleted by the
exhausted-retries branch. -/
structure SchedState where
  queue : List Nat
  active : List (Nat × Nat)
  timers : List (Nat × Nat)
  isScraping : Bool
  canStart : Bool
  quit : Bool
  processed : List Nat
  attempts : List Nat
  downloaded : Nat
  skipped : Nat
  errors : Nat
  unlinked : List Nat
  deriving DecidableEq

/-- Initial state of an autostarted run: discovery in progress, nothing
queued, downloads enabled. -/
def initState : SchedState :=
  ⟨[], [], [], true, true, false, [], [], 0, 0, 0, []⟩

/-- The dispatch loop of checkQueue:
`while (activeDownloads < CONFIG.CONCURRENT_DOWNLOADS && downloadQueue.length > 0)
   downloadFile(downloadQueue.shift())`.
Each dispatched call runs `activeDownloads++` at once (retryCount 0) and
is logged in the ghost attempt list. -/
def dispatch (limit : Nat) :
    List Nat → List (Nat × Nat) → List Nat → List Nat × List (Nat × Nat) × List Nat
  | [], act, att => ([], act, att)
  | q :: rest, act, att =>
    if act.length < limit then dispatch limit rest (act ++ [(q, 0)]) (att ++ [q])
    else (q :: rest, act, att)

/-- checkQueue from harvest-grok-imagine-v2.js: gate on canStartDownloads,
quit when the queue is empty, nothing is active and discovery is over,
otherwise run the dispatch loop. -/
def checkQueue (cfg : Cfg) (s : SchedState) : SchedState :=
  if s.canStart = false then s
  else if s.queue = [] ∧ s.active = [] ∧ s.isScraping = false then { s with quit := true }
  else
    { s with queue := (dispatch cfg.limit s.queue s.active s.attempts).1,
             active := (dispatch cfg.limit s.queue s.active s.attempts).2.1,
             attempts := (dispatch cfg.limit s.queue s.active s.attempts).2.2 }

/-- External events driving the v1 scheduler.

* `submit id ex` — processPost handles a new post (guarded by
  processedIds), addToQueue checks `fs.existsSync` (`ex`), then
  processPost calls checkQueue.
* `discoveryDone` — startApiHarvest exits its pagination loop, clears
  isScraping and calls checkQueue.
* `finishOk id rc` — the in-flight download (id, rc) finishes and
  post-processing succeeds: downloaded++, activeDownloads--, checkQueue.
* `finishErr id rc` — the in-flight download (id, rc) fails:
  handleDownloadError(task, msg, rc).
* `timerFire id rc` — a scheduled retry fires: downloadFile(task, rc),
  which increments activeDownloads with no concurrency check. -/
inductive Event where
  | submit (id : Nat) (ex : Bool)
  | discoveryDone
  | finishOk (id : Nat) (rc : Nat)
  | finishErr (id : Nat) (rc : Nat)
  | timerFire (id : Nat) (rc : Nat)
  deriving DecidableEq

/-- Remove the first occurrence of a pair from a list (the in-flight
attempt or pending timer that an event consumes). -/
def removeFirst (p : Nat × Nat) : List (Nat × Nat) → List (Nat × Nat)
  | [] => []
  | q :: rest => if q = p then rest else q :: removeFirst p rest

/-- One step of the v1 scheduler; `none` when the event is not enabled
in the given state (and no event is enabled after app.quit()). -/
def step (cfg : Cfg) (s : SchedState) : Event → Option SchedState
  | .submit id ex =>
    if s.quit = true then none
    else if id ∈ s.processed then none
    else
      let s1 : SchedState := { s with processed := id :: s.processed }
      let s2 : SchedState :=
        if ex then { s1 with skipped := s1.skipped + 1 }
        else { s1 with queue := s1.queue ++ [id] }
      some (checkQueue cfg s2)
  | .discoveryDone =>
    if s.quit = true then none
    else if s.isScraping = true then some (checkQueue cfg { s with isScraping := false })
    else none
  | .finishOk id rc =>
    if s.quit = true then none
    else if (id, rc) ∈ s.active then
      some (checkQueue cfg
        { s with active := removeFirst (id, rc) s.active, downloaded := s.downloaded + 1 })
    else none
  | .finishErr id rc =>
    if s.quit = true then none
    else if (id, rc) ∈ s.active then
      if rc < cfg.retries then
        some { s with active := removeFirst (id, rc) s.active, timers := s.timers ++ [(id, rc + 1)] }
      else
        some (checkQueue cfg
          { s with active := removeFirst (id, rc) s.active, errors := s.errors + 1,
                   unlinked := s.unlinked ++ [id] })
    else none
  | .timerFire id rc =>
    if s.quit = true then none
    else if (id, rc) ∈ s.timers then
      some { s with timers := removeFirst (id, rc) s.timers, active := s.active ++ [(id, rc)],
                    attempts := s.attempts ++ [id] }
    else none

/-- Run a trace of events from a state. -/
def runFrom (cfg : Cfg) (s : SchedState) : List Event → Option SchedState
  | [] => some s
  | e :: tr =>
    match step cfg s e with
    | some s1 => runFrom cfg s1 tr
    | none => none

/-- A state is reachable when some event trace leads to it from the
initial state. -/
def Reachable (cfg : Cfg) (s : SchedState) : Prop :=
  ∃ tr, runFrom cfg initState tr = some s

example : Reachable CONFIG initState := ⟨[], rfl⟩

example :
    (runFrom CONFIG initState [.submit 1 false]).map (fun s => s.active) =
      some [(1, 0)] := by decide

/-! ### List bookkeeping lemmas -/

theorem mem_of_mem_removeFirst {l : List (Nat × Nat)} {p x : Nat × Nat}
    (h : x ∈ removeFirst p l) : x ∈ l := by
  induction l with
  | nil => simp [removeFirst] at h
  | cons q rest ih =>
    by_cases hq : q = p
    · simp only [removeFirst, if_pos hq] at h
      exact List.mem_cons_of_mem q h
    · simp only [removeFirst, if_neg hq, List.mem_cons] at h
      rcases h with h | h
      · exact h ▸ List.mem_cons_self q rest
      · exact List.mem_cons_of_mem q (ih h)

theorem perm_removeFirst {l : List (Nat × Nat)} {p : Nat × Nat} (hp : p ∈ l) :
    List.Perm l (p :: removeFirst p l) := by
  induction l with
  | nil => cases hp
  | cons q rest ih =>
    by_cases hq : q = p
    · subst hq
      simp [removeFirst]
    · rcases List.mem_cons.mp hp with h | h
      · exact absurd h.symm hq
      · rw [removeFirst, if_neg hq]
        exact ((ih h).cons q).trans (List.Perm.swap p q _)

theorem removeFirst_sublist (p : Nat × Nat) (l : List (Nat × Nat)) :
    (removeFirst p l).Sublist l := by
  induction l with
  | nil => simp [removeFirst]
  | cons q rest ih =>
    by_cases hq : q = p
    · simp only [removeFirst, if_pos hq]
      exact List.sublist_cons_self q rest
    · simp only [removeFirst, if_neg hq]
      exact ih.cons₂ q

theorem count_map_fst_removeFirst (l : List (Nat × Nat)) (p : Nat × Nat) (hp : p ∈ l)
    (x : Nat) :
    (l.map Prod.fst).count x
      = ((removeFirst p l).map Prod.fst).count x + (if p.1 = x then 1 else 0) := by
  have h := (perm_removeFirst hp).map Prod.fst
  rw [h.count_eq x]
  by_cases h2 : p.1 = x <;> simp [List.count_cons, h2]

theorem length_filter_split (l : List (Nat × Nat)) :
    l.length = (l.filter fun p => p.2 == 0).length + (l.filter fun p => !(p.2 == 0)).length := by
  induction l with
  | nil => simp
  | cons a t ih =>
    by_cases h : a.2 = 0 <;> simp [List.filter_cons, h, ih] <;> omega

/-! ### The dispatch loop moves a prefix of the queue into the active set -/

theorem dispatch_spec (limit : Nat) :
    ∀ (q : List Nat) (act : List (Nat × Nat)) (att : List Nat),
      ∃ mv rest, q = mv ++ rest ∧
        dispatch limit q act att
          = (rest, act ++ mv.map (fun id => (id, 0)), att ++ mv) := by
  intro q
  induction q with
  | nil => intro act att; exact ⟨[], [], by simp, by simp [dispatch]⟩
  | cons a t ih =>
    intro act att
    by_cases h : act.length < limit
    · obtain ⟨mv, rest, hq, hd⟩ := ih (act ++ [(a, 0)]) (att ++ [a])
      refine ⟨a :: mv, rest, by simp [hq], ?_⟩
      simp only [dispatch, if_pos h, hd]
      simp
    · exact ⟨[], a :: t, by simp, by simp [dispatch, h]⟩

/-- Fresh (retryCount 0) dispatches never push the fresh-attempt count
past the concurrency limit: the while loop checks
`activeDownloads < CONFIG.CONCURRENT_DOWNLOADS` before each dispatch. -/
theorem dispatch_fresh (limit : Nat) :
    ∀ (q : List Nat) (act : List (Nat × Nat)) (att : List Nat),
      (act.filter fun p => p.2 == 0).length ≤ limit →
      (((dispatch limit q act att).2.1).filter fun p => p.2 == 0).length ≤ limit := by
  intro q
  induction q with
  | nil => intro act att h; simpa [dispatch] using h
  | cons a t ih =>
    intro act att h
    by_cases hl : act.length < limit
    · have hle : (act.filter fun p => p.2 == 0).length ≤ act.length :=
        List.length_filter_le _ _
      have h2 : ((act ++ [(a, 0)]).filter fun p : Nat × Nat => p.2 == 0).length ≤ limit := by
        simp only [List.filter_append]
        simp
        omega
      simpa [dispatch, hl] using ih (act ++ [(a, 0)]) (att ++ [a]) h2
    · simpa [dispatch, hl] using h

/-! ### The scheduler invariant -/

/-- Invariant of the v1 scheduler, tying the pending queue, the
in-flight download attempts, the scheduled retry timers, the ghost
attempt log and the termination flag together. -/
structure SchedInv (cfg : Cfg) (s : SchedState) : Prop where
  nodup : ∀ x, s.queue.count x + (s.active.map Prod.fst).count x
            + (s.timers.map Prod.fst).count x ≤ 1
  queueProc : ∀ x ∈ s.queue, x ∈ s.processed
  activeProc : ∀ p ∈ s.active, p.1 ∈ s.processed
  timerProc : ∀ p ∈ s.timers, p.1 ∈ s.processed
  rcActive : ∀ p ∈ s.active, p.2 ≤ cfg.retries
  rcTimer : ∀ p ∈ s.timers, p.2 ≤ cfg.retries
  timerPos : ∀ p ∈ s.timers, 1 ≤ p.2
  queueAtt : ∀ x ∈ s.queue, s.attempts.count x = 0
  activeAtt : ∀ p ∈ s.active, s.attempts.count p.1 = p.2 + 1
  timerAtt : ∀ p ∈ s.timers, s.attempts.count p.1 = p.2
  attBound : ∀ x, s.attempts.count x ≤ cfg.retries + 1
  attProc : ∀ x ∈ s.attempts, x ∈ s.processed
  freshBound : (s.active.filter fun p => p.2 == 0).length ≤ cfg.limit
  quitEmpty : s.quit = true → s.queue = [] ∧ s.active = [] ∧ s.isScraping = false

theorem initState_inv (cfg : Cfg) : SchedInv cfg initState := by
  constructor <;> simp [initState]

theorem map_fst_map_pair (l : List Nat) : (l.map fun id => (id, 0)).map Prod.fst = l := by
  induction l with
  | nil => rfl
  | cons a t ih => simp [ih]

/-- checkQueue preserves the scheduler invariant. -/
theorem checkQueue_inv {cfg : Cfg} {s : SchedState} (h : SchedInv cfg s) :
    SchedInv cfg (checkQueue cfg s) := by
  rw [checkQueue]
  split
  · exact h
  · split
    · next hq =>
      exact ⟨h.nodup, h.queueProc, h.activeProc, h.timerProc, h.rcActive, h.rcTimer,
             h.timerPos, h.queueAtt, h.activeAtt, h.timerAtt, h.attBound, h.attProc,
             h.freshBound, fun _ => hq⟩
    · next hq =>
      have hf := dispatch_fresh cfg.limit s.queue s.active s.attempts h.freshBound
      obtain ⟨mv, rest, hqeq, hd⟩ := dispatch_spec cfg.limit s.queue s.active s.attempts
      rw [hd] at hf ⊢
      have hmv_queue : ∀ x ∈ mv, x ∈ s.queue := fun x hx => hqeq ▸ List.mem_append_left _ hx
      have hrest_queue : ∀ x ∈ rest, x ∈ s.queue :=
        fun x hx => hqeq ▸ List.mem_append_right _ hx
      have hcount : ∀ x, s.queue.count x = mv.count x + rest.count x := fun x => by
        rw [hqeq, List.count_append]
      have hmapmv : (mv.map fun id => (id, 0)).map Prod.fst = mv := map_fst_map_pair mv
      have hcountA : ∀ x, ((s.active ++ mv.map fun id => (id, 0)).map Prod.fst).count x
          = (s.active.map Prod.fst).count x + mv.count x := fun x => by
        rw [List.map_append, List.count_append, hmapmv]
      have inv1 : ∀ x, rest.count x
            + ((s.active ++ mv.map fun id => (id, 0)).map Prod.fst).count x
            + (s.timers.map Prod.fst).count x ≤ 1 := by
        intro x
        have h1 := h.nodup x
        have h2 := hcount x
        have h3 := hcountA x
        omega
      have inv2 : ∀ x ∈ rest, x ∈ s.processed := fun x hx => h.queueProc x (hrest_queue x hx)
      have inv3 : ∀ p ∈ s.active ++ mv.map fun id => (id, 0), p.1 ∈ s.processed := by
        intro p hp
        rcases List.mem_append.mp hp with hp | hp
        · exact h.activeProc p hp
        · obtain ⟨id, hid, rfl⟩ := List.mem_map.mp hp
          exact h.queueProc id (hmv_queue id hid)
      have inv5 : ∀ p ∈ s.active ++ mv.map fun id => (id, 0), p.2 ≤ cfg.retries := by
        intro p hp
        rcases List.mem_append.mp hp with hp | hp
        · exact h.rcActive p hp
        · obtain ⟨id, hid, rfl⟩ := List.mem_map.mp hp
          exact Nat.zero_le _
      have inv8 : ∀ x ∈ rest, (s.attempts ++ mv).count x = 0 := by
        intro x hx
        have h1 := h.nodup x
        have h2 := hcount x
        have h3 : 0 < rest.count x := List.count_pos_iff.mpr hx
        have h4 := h.queueAtt x (hrest_queue x hx)
        rw [List.count_append]
        omega
      have inv9 : ∀ p ∈ s.active ++ mv.map fun id => (id, 0),
          (s.attempts ++ mv).count p.1 = p.2 + 1 := by
        intro p hp
        rcases List.mem_append.mp hp with hp | hp
        · rw [List.count_append]
          have h1 := h.nodup p.1
          have h2 := hcount p.1
          have h3 : 0 < (s.active.map Prod.fst).count p.1 :=
            List.count_pos_iff.mpr (List.mem_map_of_mem Prod.fst hp)
          have h4 := h.activeAtt p hp
          omega
        · obtain ⟨id, hid, rfl⟩ := List.mem_map.mp hp
          show (s.attempts ++ mv).count id = 0 + 1
          rw [List.count_append]
          have h1 := h.nodup id
          have h2 := hcount id
          have h3 : 0 < mv.count id := List.count_pos_iff.mpr hid
          have h4 := h.queueAtt id (hmv_queue id hid)
          omega
      have inv10 : ∀ p ∈ s.timers, (s.attempts ++ mv).count p.1 = p.2 := by
        intro p hp
        rw [List.count_append]
        have h1 := h.nodup p.1
        have h2 := hcount p.1
        have h3 : 0 < (s.timers.map Prod.fst).count p.1 :=
          List.count_pos_iff.mpr (List.mem_map_of_mem Prod.fst hp)
        have h4 := h.timerAtt p hp
        omega
      have inv11 : ∀ x, (s.attempts ++ mv).count x ≤ cfg.retries + 1 := by
        intro x
        rw [List.count_append]
        rcases Nat.eq_zero_or_pos (mv.count x) with h0 | h0
        · have h1 := h.attBound x
          omega
        · have hxq : x ∈ s.queue := hmv_queue x (List.count_pos_iff.mp h0)
          have h1 := h.nodup x
          have h2 := hcount x
          have h4 := h.queueAtt x hxq
          omega
      have inv12 : ∀ x ∈ s.attempts ++ mv, x ∈ s.processed := by
        intro x hx
        rcases List.mem_append.mp hx with hx | hx
        · exact h.attProc x hx
        · exact h.queueProc x (hmv_queue x hx)
      have inv14 : s.quit = true →
          rest = [] ∧ s.active ++ mv.map (fun id => (id, 0)) = [] ∧ s.isScraping = false := by
        intro hquit
        obtain ⟨hq1, hq2, hq3⟩ := h.quitEmpty hquit
        have hmr : mv ++ rest = [] := by rw [← hqeq, hq1]
        obtain ⟨hmv, hrest⟩ := List.append_eq_nil.mp hmr
        subst hmv hrest
        simp [hq2, hq3]
      exact ⟨inv1, inv2, inv3, h.timerProc, inv5, h.rcTimer, h.timerPos, inv8, inv9,
             inv10, inv11, inv12, hf, inv14⟩

theorem count_append_singleton (l : List Nat) (a x : Nat) :
    (l ++ [a]).count x = l.count x + (if a = x then 1 else 0) := by
  rw [List.count_append]
  by_cases hx : a = x <;> simp [List.count_singleton', hx]

theorem count_map_fst_append_singleton (l : List (Nat × Nat)) (p : Nat × Nat) (x : Nat) :
    ((l ++ [p]).map Prod.fst).count x
      = (l.map Prod.fst).count x + (if p.1 = x then 1 else 0) := by
  rw [List.map_append, List.count_append]
  by_cases hx : p.1 = x <;> simp [List.count_singleton', hx]

/-- Every enabled scheduler step preserves the invariant. -/
theorem step_inv {cfg : Cfg} {s s' : SchedState} {e : Event}
    (h : SchedInv cfg s) (hs : step cfg s e = some s') : SchedInv cfg s' := by
  cases e with
  | submit i ex =>
    simp only [step] at hs
    split at hs
    · cases hs
    · next hnq =>
      split at hs
      · cases hs
      · next hid =>
        injection hs with hs
        subst hs
        apply checkQueue_inv
        split
        · next hex =>
          exact ⟨h.nodup, fun x hx => List.mem_cons_of_mem _ (h.queueProc x hx),
                 fun p hp => List.mem_cons_of_mem _ (h.activeProc p hp),
                 fun p hp => List.mem_cons_of_mem _ (h.timerProc p hp),
                 h.rcActive, h.rcTimer, h.timerPos, h.queueAtt, h.activeAtt, h.timerAtt,
                 h.attBound, fun x hx => List.mem_cons_of_mem _ (h.attProc x hx),
                 h.freshBound, fun hquit => absurd hquit hnq⟩
        · next hex =>
          have hqz : s.queue.count i = 0 :=
            List.count_eq_zero.mpr fun hmem => hid (h.queueProc i hmem)
          have haz : (s.active.map Prod.fst).count i = 0 := by
            refine List.count_eq_zero.mpr fun hmem => ?_
            obtain ⟨p, hp, hfst⟩ := List.mem_map.mp hmem
            exact hid (hfst ▸ h.activeProc p hp)
          have htz : (s.timers.map Prod.fst).count i = 0 := by
            refine List.count_eq_zero.mpr fun hmem => ?_
            obtain ⟨p, hp, hfst⟩ := List.mem_map.mp hmem
            exact hid (hfst ▸ h.timerProc p hp)
          have hattz : s.attempts.count i = 0 :=
            List.count_eq_zero.mpr fun hmem => hid (h.attProc i hmem)
          have inv1 : ∀ x, (s.queue ++ [i]).count x + (s.active.map Prod.fst).count x
              + (s.timers.map Prod.fst).count x ≤ 1 := by
            intro x
            rw [count_append_singleton]
            have h1 := h.nodup x
            by_cases hx : i = x
            · rw [← hx]
              have he : (if i = i then 1 else 0) = 1 := if_pos rfl
              omega
            · have he : (if i = x then 1 else 0) = 0 := if_neg hx
              omega
          have inv2 : ∀ x ∈ s.queue ++ [i], x ∈ i :: s.processed := by
            intro x hx
            rcases List.mem_append.mp hx with hx | hx
            · exact List.mem_cons_of_mem _ (h.queueProc x hx)
            · rw [List.mem_singleton.mp hx]
              exact List.mem_cons_self _ _
          have inv8 : ∀ x ∈ s.queue ++ [i], s.attempts.count x = 0 := by
            intro x hx
            rcases List.mem_append.mp hx with hx | hx
            · exact h.queueAtt x hx
            · rw [List.mem_singleton.mp hx]
              exact hattz
          exact ⟨inv1, inv2,
                 fun p hp => List.mem_cons_of_mem _ (h.activeProc p hp),
                 fun p hp => List.mem_cons_of_mem _ (h.timerProc p hp),
                 h.rcActive, h.rcTimer, h.timerPos, inv8, h.activeAtt, h.timerAtt,
                 h.attBound, fun x hx => List.mem_cons_of_mem _ (h.attProc x hx),
                 h.freshBound, fun hquit => absurd hquit hnq⟩
  | discoveryDone =>
    simp only [step] at hs
    split at hs
    · cases hs
    · next hnq =>
      split at hs
      · injection hs with hs
        subst hs
        apply checkQueue_inv
        exact ⟨h.nodup, h.queueProc, h.activeProc, h.timerProc, h.rcActive, h.rcTimer,
               h.timerPos, h.queueAtt, h.activeAtt, h.timerAtt, h.attBound, h.attProc,
               h.freshBound, fun hquit => absurd hquit hnq⟩
      · cases hs
  | finishOk i rc =>
    simp only [step] at hs
    split at hs
    · cases hs
    · next hnq =>
      split at hs
      · next hmem =>
        injection hs with hs
        subst hs
        apply checkQueue_inv
        have hA : ∀ x, (s.active.map Prod.fst).count x
            = ((removeFirst (i, rc) s.active).map Prod.fst).count x
              + (if i = x then 1 else 0) := fun x => by
          simpa using count_map_fst_removeFirst s.active (i, rc) hmem x
        have hfb : ((removeFirst (i, rc) s.active).filter fun p => p.2 == 0).length
            ≤ cfg.limit :=
          le_trans (((removeFirst_sublist _ _).filter _).length_le) h.freshBound
        have inv1 : ∀ x, s.queue.count x
              + ((removeFirst (i, rc) s.active).map Prod.fst).count x
              + (s.timers.map Prod.fst).count x ≤ 1 := by
          intro x
          have h1 := h.nodup x
          have h2 := hA x
          by_cases hx : i = x
          · simp only [if_pos hx] at h2
            omega
          · simp only [if_neg hx] at h2
            omega
        exact ⟨inv1, h.queueProc,
               fun p hp => h.activeProc p (mem_of_mem_removeFirst hp),
               h.timerProc,
               fun p hp => h.rcActive p (mem_of_mem_removeFirst hp),
               h.rcTimer, h.timerPos, h.queueAtt,
               fun p hp => h.activeAtt p (mem_of_mem_removeFirst hp),
               h.timerAtt, h.attBound, h.attProc, hfb,
               fun hquit => absurd hquit hnq⟩
      · cases hs
  | finishErr i rc =>
    simp only [step] at hs
    split at hs
    · cases hs
    · next hnq =>
      split at hs
      · next hmem =>
        have hA : ∀ x, (s.active.map Prod.fst).count x
            = ((removeFirst (i, rc) s.active).map Prod.fst).count x
              + (if i = x then 1 else 0) := fun x => by
          simpa using count_map_fst_removeFirst s.active (i, rc) hmem x
        have hfb : ((removeFirst (i, rc) s.active).filter fun p => p.2 == 0).length
            ≤ cfg.limit :=
          le_trans (((removeFirst_sublist _ _).filter _).length_le) h.freshBound
        split at hs
        · next hrc =>
          injection hs with hs
          subst hs
          have hT : ∀ x, ((s.timers ++ [(i, rc + 1)]).map Prod.fst).count x
              = (s.timers.map Prod.fst).count x + (if i = x then 1 else 0) := fun x => by
            simpa using count_map_fst_append_singleton s.timers (i, rc + 1) x
          have inv1 : ∀ x, s.queue.count x
                + ((removeFirst (i, rc) s.active).map Prod.fst).count x
                + ((s.timers ++ [(i, rc + 1)]).map Prod.fst).count x ≤ 1 := by
            intro x
            have h1 := h.nodup x
            have h2 := hA x
            have h3 := hT x
            by_cases hx : i = x
            · simp only [if_pos hx] at h2 h3
              omega
            · simp only [if_neg hx] at h2 h3
              omega
          have inv4 : ∀ p ∈ s.timers ++ [(i, rc + 1)], p.1 ∈ s.processed := by
            intro p hp
            rcases List.mem_append.mp hp with hp | hp
            · exact h.timerProc p hp
            · rw [List.mem_singleton.mp hp]
              exact h.activeProc (i, rc) hmem
          have inv6 : ∀ p ∈ s.timers ++ [(i, rc + 1)], p.2 ≤ cfg.retries := by
            intro p hp
            rcases List.mem_append.mp hp with hp | hp
            · exact h.rcTimer p hp
            · rw [List.mem_singleton.mp hp]
              exact hrc
          have inv7 : ∀ p ∈ s.timers ++ [(i, rc + 1)], 1 ≤ p.2 := by
            intro p hp
            rcases List.mem_append.mp hp with hp | hp
            · exact h.timerPos p hp
            · rw [List.mem_singleton.mp hp]
              exact Nat.succ_le_succ (Nat.zero_le rc)
          have inv10 : ∀ p ∈ s.timers ++ [(i, rc + 1)], s.attempts.count p.1 = p.2 := by
            intro p hp
            rcases List.mem_append.mp hp with hp | hp
            · exact h.timerAtt p hp
            · rw [List.mem_singleton.mp hp]
              exact h.activeAtt (i, rc) hmem
          exact ⟨inv1, h.queueProc,
                 fun p hp => h.activeProc p (mem_of_mem_removeFirst hp), inv4,
                 fun p hp => h.rcActive p (mem_of_mem_removeFirst hp), inv6, inv7,
                 h.queueAtt,
                 fun p hp => h.activeAtt p (mem_of_mem_removeFirst hp), inv10,
                 h.attBound, h.attProc, hfb, fun hquit => absurd hquit hnq⟩
        · next hrc =>
          injection hs with hs
          subst hs
          apply checkQueue_inv
          have inv1 : ∀ x, s.queue.count x
                + ((removeFirst (i, rc) s.active).map Prod.fst).count x
                + (s.timers.map Prod.fst).count x ≤ 1 := by
            intro x
            have h1 := h.nodup x
            have h2 := hA x
            by_cases hx : i = x
            · simp only [if_pos hx] at h2
              omega
            · simp only [if_neg hx] at h2
              omega
          exact ⟨inv1, h.queueProc,
                 fun p hp => h.activeProc p (mem_of_mem_removeFirst hp),
                 h.timerProc,
                 fun p hp => h.rcActive p (mem_of_mem_removeFirst hp),
                 h.rcTimer, h.timerPos, h.queueAtt,
                 fun p hp => h.activeAtt p (mem_of_mem_removeFirst hp),
                 h.timerAtt, h.attBound, h.attProc, hfb,
                 fun hquit => absurd hquit hnq⟩
      · cases hs
  | timerFire i rc =>
    simp only [step] at hs
    split at hs
    · cases hs
    · next hnq =>
      split at hs
      · next hmem =>
        injection hs with hs
        subst hs
        have hT : ∀ x, (s.timers.map Prod.fst).count x
            = ((removeFirst (i, rc) s.timers).map Prod.fst).count x
              + (if i = x then 1 else 0) := fun x => by
          simpa using count_map_fst_removeFirst s.timers (i, rc) hmem x
        have hA : ∀ x, ((s.active ++ [(i, rc)]).map Prod.fst).count x
            = (s.active.map Prod.fst).count x + (if i = x then 1 else 0) := fun x => by
          simpa using count_map_fst_append_singleton s.active (i, rc) x
        have hatt : ∀ x, (s.attempts ++ [i]).count x
            = s.attempts.count x + (if i = x then 1 else 0) :=
          fun x => count_append_singleton s.attempts i x
        have hTid : 0 < (s.timers.map Prod.fst).count i :=
          List.count_pos_iff.mpr (List.mem_map_of_mem Prod.fst hmem)
        have hAid : (s.active.map Prod.fst).count i = 0 := by
          have h1 := h.nodup i
          omega
        have hQid : s.queue.count i = 0 := by
          have h1 := h.nodup i
          omega
        have hAtti : s.attempts.count i = rc := h.timerAtt (i, rc) hmem
        have hrcle : rc ≤ cfg.retries := h.rcTimer (i, rc) hmem
        have hrcpos : 1 ≤ rc := h.timerPos (i, rc) hmem
        have inv1 : ∀ x, s.queue.count x
              + ((s.active ++ [(i, rc)]).map Prod.fst).count x
              + ((removeFirst (i, rc) s.timers).map Prod.fst).count x ≤ 1 := by
          intro x
          have h1 := h.nodup x
          have h2 := hT x
          have h3 := hA x
          by_cases hx : i = x
          · simp only [if_pos hx] at h2 h3
            omega
          · simp only [if_neg hx] at h2 h3
            omega
        have inv3 : ∀ p ∈ s.active ++ [(i, rc)], p.1 ∈ s.processed := by
          intro p hp
          rcases List.mem_append.mp hp with hp | hp
          · exact h.activeProc p hp
          · rw [List.mem_singleton.mp hp]
            exact h.timerProc (i, rc) hmem
        have inv5 : ∀ p ∈ s.active ++ [(i, rc)], p.2 ≤ cfg.retries := by
          intro p hp
          rcases List.mem_append.mp hp with hp | hp
          · exact h.rcActive p hp
          · rw [List.mem_singleton.mp hp]
            exact hrcle
        have inv8 : ∀ x ∈ s.queue, (s.attempts ++ [i]).count x = 0 := by
          intro x hx
          have hxc : 0 < s.queue.count x := List.count_pos_iff.mpr hx
          have hxi : ¬ i = x := by
            intro hcon
            rw [← hcon] at hxc
            omega
          rw [hatt x]
          simp only [if_neg hxi]
          have := h.queueAtt x hx
          omega
        have inv9 : ∀ p ∈ s.active ++ [(i, rc)], (s.attempts ++ [i]).count p.1 = p.2 + 1 := by
          intro p hp
          rcases List.mem_append.mp hp with hp | hp
          · have hpc : 0 < (s.active.map Prod.fst).count p.1 :=
              List.count_pos_iff.mpr (List.mem_map_of_mem Prod.fst hp)
            have hpi : ¬ i = p.1 := by
              intro hcon
              rw [← hcon] at hpc
              omega
            rw [hatt p.1]
            simp only [if_neg hpi]
            have := h.activeAtt p hp
            omega
          · rw [List.mem_singleton.mp hp]
            show (s.attempts ++ [i]).count i = rc + 1
            rw [hatt i]
            have he : (if i = i then 1 else 0) = 1 := if_pos rfl
            omega
        have inv10 : ∀ p ∈ removeFirst (i, rc) s.timers,
            (s.attempts ++ [i]).count p.1 = p.2 := by
          intro p hp
          have hRid : ((removeFirst (i, rc) s.timers).map Prod.fst).count i = 0 := by
            have h1 := h.nodup i
            have h2 := hT i
            have he : (if i = i then 1 else 0) = 1 := if_pos rfl
            omega
          have hpc : 0 < ((removeFirst (i, rc) s.timers).map Prod.fst).count p.1 :=
            List.count_pos_iff.mpr (List.mem_map_of_mem Prod.fst hp)
          have hpi : ¬ i = p.1 := by
            intro hcon
            rw [← hcon] at hpc
            omega
          rw [hatt p.1]
          simp only [if_neg hpi]
          have := h.timerAtt p (mem_of_mem_removeFirst hp)
          omega
        have inv11 : ∀ x, (s.attempts ++ [i]).count x ≤ cfg.retries + 1 := by
          intro x
          rw [hatt x]
          by_cases hx : i = x
          · rw [← hx]
            have he : (if i = i then 1 else 0) = 1 := if_pos rfl
            omega
          · have he : (if i = x then 1 else 0) = 0 := if_neg hx
            have := h.attBound x
            omega
        have inv12 : ∀ x ∈ s.attempts ++ [i], x ∈ s.processed := by
          intro x hx
          rcases List.mem_append.mp hx with hx | hx
          · exact h.attProc x hx
          · rw [List.mem_singleton.mp hx]
            exact h.timerProc (i, rc) hmem
        have inv13 : ((s.active ++ [(i, rc)]).filter fun p => p.2 == 0).length
            ≤ cfg.limit := by
          have hne : ¬ rc = 0 := by omega
          rw [List.filter_append]
          simp [List.filter_cons, hne]
          exact h.freshBound
        exact ⟨inv1, h.queueProc, inv3,
               fun p hp => h.timerProc p (mem_of_mem_removeFirst hp), inv5,
               fun p hp => h.rcTimer p (mem_of_mem_removeFirst hp),
               fun p hp => h.timerPos p (mem_of_mem_removeFirst hp),
               inv8, inv9, inv10, inv11, inv12, inv13,
               fun hquit => absurd hquit hnq⟩
      · cases hs

theorem runFrom_inv {cfg : Cfg} :
    ∀ (tr : List Event) (s s' : SchedState),
      SchedInv cfg s → runFrom cfg s tr = some s' → SchedInv cfg s' := by
  intro tr
  induction tr with
  | nil =>
    intro s s' h hr
    simp only [runFrom] at hr
    injection hr with hr
    exact hr ▸ h
  | cons e tr ih =>
    intro s s' h hr
    simp only [runFrom] at hr
    split at hr
    · next s1 hstep => exact ih s1 s' (step_inv h hstep) hr
    · cases hr

/-- Every reachable state satisfies the scheduler invariant. -/
theorem reachable_inv {cfg : Cfg} {s : SchedState} (h : Reachable cfg s) :
    SchedInv cfg s := by
  obtain ⟨tr, htr⟩ := h
  exact runFrom_inv tr initState s (initState_inv cfg) htr

theorem runFrom_append (cfg : Cfg) :
    ∀ (tr1 tr2 : List Event) (s : SchedState),
      runFrom cfg s (tr1 ++ tr2)
        = (runFrom cfg s tr1).bind fun s1 => runFrom cfg s1 tr2 := by
  intro tr1
  induction tr1 with
  | nil => intro tr2 s; rfl
  | cons e tr ih =>
    intro tr2 s
    simp only [List.cons_append, runFrom]
    split
    · next s1 hstep => exact ih tr2 s1
    · rfl

/-- Reachability is closed under enabled steps. -/
theorem reachable_step {cfg : Cfg} {s s' : SchedState} {e : Event}
    (h : Reachable cfg s) (hs : step cfg s e = some s') : Reachable cfg s' := by
  obtain ⟨tr, htr⟩ := h
  refine ⟨tr ++ [e], ?_⟩
  rw [runFrom_append, htr]
  simp [runFrom, hs]

theorem checkQueue_const (cfg : Cfg) (s : SchedState) :
    (checkQueue cfg s).errors = s.errors ∧ (checkQueue cfg s).unlinked = s.unlinked
      ∧ (checkQueue cfg s).timers = s.timers := by
  rw [checkQueue]
  split
  · exact ⟨rfl, rfl, rfl⟩
  · split
    · exact ⟨rfl, rfl, rfl⟩
    · exact ⟨rfl, rfl, rfl⟩

theorem checkQueue_mem_queue {cfg : Cfg} {s : SchedState} {x : Nat}
    (hx : x ∈ (checkQueue cfg s).queue) : x ∈ s.queue := by
  rw [checkQueue] at hx
  split at hx
  · exact hx
  · split at hx
    · exact hx
    · obtain ⟨mv, rest, hq, hd⟩ := dispatch_spec cfg.limit s.queue s.active s.attempts
      rw [hd] at hx
      exact hq ▸ List.mem_append_right mv hx

theorem checkQueue_mem_active {cfg : Cfg} {s : SchedState} {p : Nat × Nat}
    (hp : p ∈ (checkQueue cfg s).active) : p ∈ s.active ∨ (p.2 = 0 ∧ p.1 ∈ s.queue) := by
  rw [checkQueue] at hp
  split at hp
  · exact Or.inl hp
  · split at hp
    · exact Or.inl hp
    · obtain ⟨mv, rest, hq, hd⟩ := dispatch_spec cfg.limit s.queue s.active s.attempts
      rw [hd] at hp
      rcases List.mem_append.mp hp with hp | hp
      · exact Or.inl hp
      · obtain ⟨i, hi, rfl⟩ := List.mem_map.mp hp
        exact Or.inr ⟨rfl, hq ▸ List.mem_append_left rest hi⟩

/-- C1 (amended): in every reachable state of the v1 scheduler, the number
of in-flight first attempts (retryCount 0, the ones dispatched through
checkQueue) is at most CONFIG.CONCURRENT_DOWNLOADS, and hence the total
activeDownloads counter is bounded by the limit plus the number of
in-flight delayed-retry attempts.  The retry path of handleDownloadError
calls downloadFile directly without re-checking the limit, so the
unconditional bound of the original claim fails (see the
counterexample). -/
theorem c1_fresh_attempts_bounded (cfg : Cfg) (s : SchedState) (h : Reachable cfg s) :
    ((s.active.filter fun p => p.2 == 0).length ≤ cfg.limit) ∧
    s.active.length ≤ cfg.limit + (s.active.filter fun p => !(p.2 == 0)).length := by
  have hinv := reachable_inv h
  refine ⟨hinv.freshBound, ?_⟩
  have hsplit := length_filter_split s.active
  have hfb := hinv.freshBound
  omega

/-- C1 witness: the bound instantiated at a concrete reachable state
holding one delayed-retry attempt. -/
theorem c1_fresh_attempts_bounded_witness :
    (((⟨[], [(1, 1)], [], true, true, false, [1], [1, 1], 0, 0, 0, []⟩ :
        SchedState).active.filter fun p => p.2 == 0).length ≤ CONFIG.limit) ∧
    (⟨[], [(1, 1)], [], true, true, false, [1], [1, 1], 0, 0, 0, []⟩ :
        SchedState).active.length
      ≤ CONFIG.limit + ((⟨[], [(1, 1)], [], true, true, false, [1], [1, 1], 0, 0, 0, []⟩ :
        SchedState).active.filter fun p => !(p.2 == 0)).length :=
  c1_fresh_attempts_bounded CONFIG _
    ⟨[.submit 1 false, .finishErr 1 0, .timerFire 1 1], by decide⟩

/-- C1 counterexample: a trace in which a delayed retry fires while five
fresh downloads are already active, driving activeDownloads to 6 while
CONFIG.CONCURRENT_DOWNLOADS is 5 — the claimed invariant
activeCount ≤ CONCURRENCY_LIMIT is violated through the delayed-retry
path. -/
theorem c1_counterexample :
    (runFrom CONFIG initState
        [.submit 1 false, .submit 2 false, .submit 3 false, .submit 4 false,
         .submit 5 false, .submit 6 false, .finishErr 1 0, .submit 7 false,
         .timerFire 1 1]).map (fun s => s.active.length) = some 6
      ∧ CONFIG.limit = 5 := by decide

/-- C3 (amended): the run quits only when discovery is finished and both
the pending queue and the active count are zero — but a task waiting on
its delayed retry timer is counted in neither, so the run can end while
such a retry is still pending (see the counterexample). -/
theorem c3_quit_only_when_drained (cfg : Cfg) (s s' : SchedState) (e : Event)
    (h : Reachable cfg s) (hs : step cfg s e = some s') (hq : s'.quit = true) :
    s'.isScraping = false ∧ s'.queue = [] ∧ s'.active = [] := by
  have hinv := reachable_inv (reachable_step h hs)
  obtain ⟨h1, h2, h3⟩ := hinv.quitEmpty hq
  exact ⟨h3, h1, h2⟩

/-- C3 witness: the quit condition read off the state reached by
discoveryDone on an empty scheduler. -/
theorem c3_quit_only_when_drained_witness :
    (⟨[], [], [], false, true, true, [], [], 0, 0, 0, []⟩ : SchedState).isScraping = false
      ∧ (⟨[], [], [], false, true, true, [], [], 0, 0, 0, []⟩ : SchedState).queue = []
      ∧ (⟨[], [], [], false, true, true, [], [], 0, 0, 0, []⟩ : SchedState).active = [] :=
  c3_quit_only_when_drained CONFIG initState _ .discoveryDone ⟨[], rfl⟩ (by decide)
    (by decide)

/-- C3 counterexample: discovery is complete, task 1 fails and is waiting
on its 2-second retry timer, task 2 then completes; checkQueue observes
queue = 0, active = 0, discovery over — and quits while task 1 has not
reached a terminal state. -/
theorem c3_counterexample :
    (runFrom CONFIG initState
        [.submit 1 false, .submit 2 false, .discoveryDone, .finishErr 1 0,
         .finishOk 2 0]).map (fun s => (s.quit, s.timers)) = some (true, [(1, 1)]) := by
  decide

/-- C4 (amended): when a download attempt fails with attempts remaining,
handleDownloadError schedules `setTimeout(() => downloadFile(task, rc+1), 2000)`:
the task goes to the tail of the pending *timer* list, the shared pending
queue is untouched, and when the timer fires the task is re-dispatched by
a direct downloadFile call that appends it to the active set without
passing through the queue or the concurrency check. -/
theorem c4_retry_bypasses_queue (cfg : Cfg) (s : SchedState) (i rc : Nat)
    (hq : s.quit = false) (hm : (i, rc) ∈ s.active) (hr : rc < cfg.retries) :
    step cfg s (.finishErr i rc)
        = some { s with active := removeFirst (i, rc) s.active,
                        timers := s.timers ++ [(i, rc + 1)] }
      ∧ ∀ t : SchedState, t.quit = false → (i, rc + 1) ∈ t.timers →
          step cfg t (.timerFire i (rc + 1))
            = some { t with timers := removeFirst (i, rc + 1) t.timers,
                            active := t.active ++ [(i, rc + 1)],
                            attempts := t.attempts ++ [i] } := by
  constructor
  · simp [step, hq, hm, hr]
  · intro t htq htm
    simp [step, htq, htm]

/-- C4 witness: the retry transition evaluated on a one-task state. -/
theorem c4_retry_bypasses_queue_witness :
    step CONFIG (⟨[], [(1, 0)], [], true, true, false, [1], [1], 0, 0, 0, []⟩ : SchedState)
        (.finishErr 1 0)
        = some ⟨[], [], [(1, 1)], true, true, false, [1], [1], 0, 0, 0, []⟩
      ∧ step CONFIG (⟨[], [], [(1, 1)], true, true, false, [1], [1], 0, 0, 0, []⟩ :
            SchedState) (.timerFire 1 1)
        = some ⟨[], [(1, 1)], [], true, true, false, [1], [1, 1], 0, 0, 0, []⟩ :=
  ⟨(c4_retry_bypasses_queue CONFIG _ 1 0 (by decide) (by decide) (by decide)).1,
   (c4_retry_bypasses_queue CONFIG
      (⟨[], [(1, 0)], [], true, true, false, [1], [1], 0, 0, 0, []⟩ : SchedState) 1 0
      (by decide) (by decide) (by decide)).2 _ (by decide) (by decide)⟩

/-- C4 counterexample: after a retryable failure the task is not in the
pending queue at all (the queue stays empty); it sits on a setTimeout
timer instead, refuting the claim that it re-enters the shared pending
queue at the tail. -/
theorem c4_counterexample :
    (runFrom CONFIG initState [.submit 1 false, .finishErr 1 0]).map
        (fun s => (s.queue, s.timers)) = some ([], [(1, 1)]) := by decide

/-- C5: the ghost attempt log of every reachable state counts at most
DOWNLOAD_RETRIES + 1 attempts per task, every in-flight or scheduled
attempt carries a retryCount of at most DOWNLOAD_RETRIES, and when the
final attempt (retryCount = DOWNLOAD_RETRIES) fails, handleDownloadError
increments errorCount exactly once, unlinks the orphaned temp file, and
leaves the task in no scheduler component, so no further attempt or
failure event for it is enabled. -/
theorem c5_attempt_bound (cfg : Cfg) (s : SchedState) (h : Reachable cfg s) :
    (∀ i, s.attempts.count i ≤ cfg.retries + 1) ∧
    (∀ p ∈ s.active ++ s.timers, p.2 ≤ cfg.retries) ∧
    (∀ i, (i, cfg.retries) ∈ s.active → s.quit = false →
      ∃ s', step cfg s (.finishErr i cfg.retries) = some s'
        ∧ s'.errors = s.errors + 1 ∧ i ∈ s'.unlinked ∧ i ∉ s'.queue
        ∧ (∀ rc, (i, rc) ∉ s'.active) ∧ (∀ rc, (i, rc) ∉ s'.timers)) := by
  have hinv := reachable_inv h
  refine ⟨hinv.attBound, ?_, ?_⟩
  · intro p hp
    rcases List.mem_append.mp hp with hp | hp
    · exact hinv.rcActive p hp
    · exact hinv.rcTimer p hp
  · intro i hm hq
    have hAi : 0 < (s.active.map Prod.fst).count i :=
      List.count_pos_iff.mpr (List.mem_map_of_mem Prod.fst hm)
    have hnd := hinv.nodup i
    have hremA : ((removeFirst (i, cfg.retries) s.active).map Prod.fst).count i = 0 := by
      have h2 := count_map_fst_removeFirst s.active (i, cfg.retries) hm i
      have he : ((i, cfg.retries).1 = i) := rfl
      rw [if_pos he] at h2
      omega
    have hqz : i ∉ s.queue := by
      intro hcon
      have := List.count_pos_iff.mpr hcon
      omega
    have htz : ∀ rc, (i, rc) ∉ s.timers := by
      intro rc hcon
      have : 0 < (s.timers.map Prod.fst).count i := by
        simpa using List.count_pos_iff.mpr (List.mem_map_of_mem Prod.fst hcon)
      omega
    refine ⟨checkQueue cfg
        { s with active := removeFirst (i, cfg.retries) s.active,
                 errors := s.errors + 1, unlinked := s.unlinked ++ [i] }, ?_, ?_, ?_, ?_, ?_, ?_⟩
    · simp [step, hq, hm]
    · exact (checkQueue_const cfg _).1
    · rw [(checkQueue_const cfg _).2.1]
      exact List.mem_append_right _ (List.mem_singleton.mpr rfl)
    · intro hcon
      have h9 := @checkQueue_mem_queue cfg _ i hcon
      exact hqz h9
    · intro rc hcon
      rcases checkQueue_mem_active hcon with hcon | hcon
      · have hcon2 : (i, rc) ∈ removeFirst (i, cfg.retries) s.active := hcon
        have : 0 < ((removeFirst (i, cfg.retries) s.active).map Prod.fst).count i := by
          simpa using List.count_pos_iff.mpr (List.mem_map_of_mem Prod.fst hcon2)
        omega
      · have hcon2 : i ∈ s.queue := hcon.2
        exact hqz hcon2
    · intro rc hcon
      rw [(checkQueue_const cfg _).2.2] at hcon
      exact htz rc hcon

/-- C5 witness: a task that has burned attempts 1 through 4
(retryCounts 0..3); its fourth and final failure increments errorCount
and unlinks the temp file. -/
theorem c5_attempt_bound_witness :
    ((⟨[], [(1, 3)], [], true, true, false, [1], [1, 1, 1, 1], 0, 0, 0, []⟩ :
        SchedState).attempts.count 1 ≤ CONFIG.retries + 1)
      ∧ ((step CONFIG
            (⟨[], [(1, 3)], [], true, true, false, [1], [1, 1, 1, 1], 0, 0, 0, []⟩ :
              SchedState) (.finishErr 1 CONFIG.retries)).map
          (fun s' => (s'.errors, decide (1 ∈ s'.unlinked))) = some (1, true)) := by
  have h := c5_attempt_bound CONFIG
    (⟨[], [(1, 3)], [], true, true, false, [1], [1, 1, 1, 1], 0, 0, 0, []⟩ : SchedState)
    ⟨[.submit 1 false, .finishErr 1 0, .timerFire 1 1, .finishErr 1 1, .timerFire 1 2,
      .finishErr 1 2, .timerFire 1 3], by decide⟩
  refine ⟨h.1 1, ?_⟩
  obtain ⟨s', h1, h2, h3, _⟩ := h.2.2 1 (by decide) rfl
  rw [h1]
  simp [h2, h3]

/-! ## C2: running the pipeline twice against the same destination

The dedup index is the destination directory itself: addToQueue checks
`fs.existsSync(path.join(CONFIG.OUTPUT_DIR, task.filename))` and a
completed task's final rename lands the file at exactly that path. -/

/-- Accumulator of one v1 pipeline run: the files present in OUTPUT_DIR
plus the downloaded and skipped counters of harvestStats. -/
structure RunAcc where
  files : List String
  downloaded : Nat
  skipped : Nat
  deriving DecidableEq

/-- addToQueue for one candidate (the existsSync test on the full
filename) composed with the completion of its download when it is not
skipped: a completed task's rename puts task.filename into OUTPUT_DIR and
downloaded is incremented.  Folding this over the candidates models a run
in which every queued task completed. -/
def addToQueueStep (acc : RunAcc) (filename : String) : RunAcc :=
  if filename ∈ acc.files then { acc with skipped := acc.skipped + 1 }
  else { files := acc.files ++ [filename], downloaded := acc.downloaded + 1,
         skipped := acc.skipped }

/-- A whole run, every queued task completing, over a candidate list. -/
def runCompleted (cands : List String) (files : List String) : RunAcc :=
  cands.foldl addToQueueStep ⟨files, 0, 0⟩

theorem foldl_files_mono (cands : List String) :
    ∀ acc : RunAcc, ∀ f ∈ acc.files, f ∈ (cands.foldl addToQueueStep acc).files := by
  induction cands with
  | nil => intro acc f hf; exact hf
  | cons c rest ih =>
    intro acc f hf
    simp only [List.foldl_cons]
    apply ih
    rw [addToQueueStep]
    split
    · exact hf
    · exact List.mem_append_left _ hf

theorem foldl_cands_mem (cands : List String) :
    ∀ acc : RunAcc, ∀ c ∈ cands, c ∈ (cands.foldl addToQueueStep acc).files := by
  induction cands with
  | nil => intro acc c hc; cases hc
  | cons c0 rest ih =>
    intro acc c hc
    simp only [List.foldl_cons]
    rcases List.mem_cons.mp hc with hc | hc
    · subst hc
      apply foldl_files_mono
      rw [addToQueueStep]
      split
      · next hin => exact hin
      · exact List.mem_append_right _ (List.mem_singleton.mpr rfl)
    · exact ih _ c hc

theorem foldl_all_skipped (cands : List String) :
    ∀ acc : RunAcc, (∀ c ∈ cands, c ∈ acc.files) →
      cands.foldl addToQueueStep acc
        = ⟨acc.files, acc.downloaded, acc.skipped + cands.length⟩ := by
  induction cands with
  | nil =>
    intro acc h
    obtain ⟨f, d, k⟩ := acc
    simp
  | cons c rest ih =>
    intro acc h
    simp only [List.foldl_cons]
    rw [addToQueueStep, if_pos (h c (List.mem_cons_self c rest))]
    rw [ih ⟨acc.files, acc.downloaded, acc.skipped + 1⟩
          fun x hx => h x (List.mem_cons_of_mem c hx)]
    simp only [RunAcc.mk.injEq, List.length_cons]
    exact ⟨trivial, trivial, by omega⟩

/-! ### getTargets of the part_000 Google-Photos harvester -/

/-- A JSON sidecar file as getTargets sees it: its directory, file name,
and the url and title fields of its parsed content (none when the field
is absent or the JSON is malformed). -/
structure GJson where
  dir : String
  name : String
  url : Option String
  title : Option String
  deriving DecidableEq

/-- The slice of the filesystem tree that getTargets walks: the media
files as (directory, filename) pairs, and the .json sidecars. -/
structure GFS where
  media : List (String × String)
  jsons : List GJson
  deriving DecidableEq

/-- An orphan target: jsonPath, url, title (the mediaDate is ignored
here — it is only used for logging). -/
structure GTarget where
  dir : String
  jsonName : String
  title : String
  deriving DecidableEq

/-- One getTargets check: a json yields a target when it has a url and a
title and the media file at `path.join(path.dirname(jsonPath), data.title)`
does not exist. -/
def isTarget (media : List (String × String)) (j : GJson) : Option GTarget :=
  match j.url, j.title with
  | some _, some t => if (j.dir, t) ∈ media then none else some ⟨j.dir, j.name, t⟩
  | _, _ => none

def getTargets (fs : GFS) : List GTarget :=
  fs.jsons.filterMap (isTarget fs.media)

/-- A first run in which every target completed: the browser saves each
target's media file under `saveName t` in the json's directory, and each
processed json is hidden by prefixing a dot (the new name still ends in
.json, so the next walk still collects it). -/
def completedGRun (saveName : GTarget → String) (fs : GFS) : GFS :=
  { media := fs.media ++ (getTargets fs).map fun tg => (tg.dir, saveName tg),
    jsons := fs.jsons.map fun j =>
      if (isTarget fs.media j).isSome then { j with name := "." ++ j.name } else j }

/-- C2: running the pipeline a second time against the same destination
with the same candidate set, after a first run in which every task
completed, yields zero new downloads: every candidate is found present
and skipped (v1 pipeline), and getTargets of the updated tree is empty
(part_000 pipeline, assuming the browser saved each file under the
target's title — the name the orphan check tests). -/
theorem c2_second_run_idempotent :
    (∀ (cands files : List String),
      (runCompleted cands (runCompleted cands files).files).downloaded = 0
        ∧ (runCompleted cands (runCompleted cands files).files).skipped = cands.length
        ∧ (runCompleted cands (runCompleted cands files).files).files
            = (runCompleted cands files).files)
      ∧ ∀ (saveName : GTarget → String) (fs : GFS),
          (∀ t ∈ getTargets fs, saveName t = t.title) →
          getTargets (completedGRun saveName fs) = [] := by
  constructor
  · intro cands files
    have hall : ∀ c ∈ cands, c ∈ (runCompleted cands files).files :=
      fun c hc => foldl_cands_mem cands ⟨files, 0, 0⟩ c hc
    have e1 : runCompleted cands (runCompleted cands files).files
        = ⟨(runCompleted cands files).files, 0, 0 + cands.length⟩ :=
      foldl_all_skipped cands ⟨(runCompleted cands files).files, 0, 0⟩ hall
    rw [e1]
    exact ⟨rfl, Nat.zero_add _, rfl⟩
  · intro saveName fs hsave
    rw [getTargets, List.filterMap_eq_nil_iff]
    intro j1 hj1
    have hj1m : j1 ∈ fs.jsons.map fun j =>
        if (isTarget fs.media j).isSome then { j with name := "." ++ j.name } else j := hj1
    obtain ⟨j0, hj0, rfl⟩ := List.mem_map.mp hj1m
    by_cases hcase : (isTarget fs.media j0).isSome
    · rw [if_pos hcase]
      rcases hju : j0.url with _ | u
      · simp [isTarget, hju] at hcase
      · rcases hjt : j0.title with _ | t
        · simp [isTarget, hju, hjt] at hcase
        · have hnotin : (j0.dir, t) ∉ fs.media := by
            intro hin
            simp [isTarget, hju, hjt, hin] at hcase
          have htgt : isTarget fs.media j0 = some ⟨j0.dir, j0.name, t⟩ := by
            simp [isTarget, hju, hjt, hnotin]
          have hmem : (⟨j0.dir, j0.name, t⟩ : GTarget) ∈ getTargets fs := by
            rw [getTargets]
            exact List.mem_filterMap.mpr ⟨j0, hj0, htgt⟩
          have hsv := hsave _ hmem
          have hmem2 : (j0.dir, t)
              ∈ fs.media ++ (getTargets fs).map fun tg => (tg.dir, saveName tg) := by
            refine List.mem_append_right _ ?_
            refine List.mem_map.mpr ⟨⟨j0.dir, j0.name, t⟩, hmem, ?_⟩
            rw [hsv]
          simp [completedGRun, isTarget, hju, hjt, hmem2]
    · rw [if_neg hcase]
      rcases hju : j0.url with _ | u
      · simp [isTarget, hju]
      · rcases hjt : j0.title with _ | t
        · simp [isTarget, hju, hjt]
        · have hin : (j0.dir, t) ∈ fs.media := by
            by_contra hnin
            simp [isTarget, hju, hjt, hnin] at hcase
          have hmem2 : (j0.dir, t)
              ∈ fs.media ++ (getTargets fs).map fun tg => (tg.dir, saveName tg) :=
            List.mem_append_left _ hin
          simp [completedGRun, isTarget, hju, hjt, hmem2]

/-- C2 witness: the two parts evaluated on one-candidate inputs. -/
theorem c2_second_run_idempotent_witness :
    ((runCompleted ["grok-image-a.jpg"]
        (runCompleted ["grok-image-a.jpg"] []).files).downloaded = 0)
      ∧ getTargets (completedGRun (fun t => t.title)
            ⟨[], [⟨"d", "a.json", some "u", some "m.mp4"⟩]⟩) = [] :=
  ⟨(c2_second_run_idempotent.1 ["grok-image-a.jpg"] []).1,
   c2_second_run_idempotent.2 (fun t => t.title)
     ⟨[], [⟨"d", "a.json", some "u", some "m.mp4"⟩]⟩ (fun _ _ => rfl)⟩

/-! ## C6: stall timers of the download handlers

The first variant's downloadFile (lines 335-404) has no stall timer at
all; the second variant's will-download handler re-arms only on new
bytes; part_000's handler re-arms on every progressing update without
reading the byte count.  The models below replay a transfer's updated
events as (time, receivedBytes) pairs in time order, ending at tEnd,
and return the cancellation time (none = never cancelled). -/

def DOWNLOAD_TIMEOUT_MS : Nat := 120000

def DOWNLOAD_TIMEOUT_SECONDS : Nat := 30

/-- Stall timer of the v2 will-download handler: resetTimeout() arms the
deadline at transfer start, item.on updated re-arms it only when
`state === 'progressing' && item.getReceivedBytes() > lastBytes`, and
item.cancel() fires when the deadline passes first. -/
def stallV2 (T : Nat) : Nat → Nat → List (Nat × Nat) → Nat → Option Nat
  | deadline, _, [], tEnd => if deadline < tEnd then some deadline else none
  | deadline, lastBytes, (t, b) :: rest, tEnd =>
    if deadline < t then some deadline
    else if lastBytes < b then stallV2 T (t + T) b rest tEnd
    else stallV2 T deadline lastBytes rest tEnd

/-- Stall timer of the part_000 will-download handler: re-armed on every
progressing updated event, regardless of the byte count. -/
def stallP0 (T : Nat) : Nat → List (Nat × Nat) → Nat → Option Nat
  | deadline, [], tEnd => if deadline < tEnd then some deadline else none
  | deadline, (t, _) :: rest, tEnd =>
    if deadline < t then some deadline
    else stallP0 T (t + T) rest tEnd

/-- A steadily progressing transfer: every event brings new bytes within
T of the previous progress, and the transfer completes within T of the
last progress. -/
def steady (T : Nat) : Nat → Nat → List (Nat × Nat) → Nat → Bool
  | tPrev, _, [], tEnd => decide (tEnd ≤ tPrev + T)
  | tPrev, lastBytes, (t, b) :: rest, tEnd =>
    decide (t ≤ tPrev + T) && decide (lastBytes < b) && steady T t b rest tEnd

/-- Progressing events (bytes ignored) each within T of the previous. -/
def gapsOk (T : Nat) : Nat → List (Nat × Nat) → Nat → Bool
  | tPrev, [], tEnd => decide (tEnd ≤ tPrev + T)
  | tPrev, (t, _) :: rest, tEnd => decide (t ≤ tPrev + T) && gapsOk T t rest tEnd

theorem stallV2_no_bytes (T t0 tEnd : Nat) :
    ∀ evs : List (Nat × Nat), (∀ p ∈ evs, p.2 = 0) → t0 + T < tEnd →
      stallV2 T (t0 + T) 0 evs tEnd = some (t0 + T) := by
  intro evs
  induction evs with
  | nil => intro h ht; simp [stallV2, ht]
  | cons e rest ih =>
    intro h ht
    obtain ⟨t, b⟩ := e
    have hb : b = 0 := h (t, b) (List.mem_cons_self _ _)
    subst hb
    rw [stallV2]
    split
    · rfl
    · rw [if_neg (by omega)]
      exact ih (fun p hp => h p (List.mem_cons_of_mem _ hp)) ht

theorem stallV2_steady (T : Nat) :
    ∀ (evs : List (Nat × Nat)) (tPrev lb tEnd : Nat),
      steady T tPrev lb evs tEnd = true →
      stallV2 T (tPrev + T) lb evs tEnd = none := by
  intro evs
  induction evs with
  | nil =>
    intro tPrev lb tEnd h
    rw [steady] at h
    have h2 := of_decide_eq_true h
    rw [stallV2, if_neg (by omega)]
  | cons e rest ih =>
    intro tPrev lb tEnd h
    obtain ⟨t, b⟩ := e
    rw [steady] at h
    simp only [Bool.and_eq_true, decide_eq_true_eq] at h
    obtain ⟨⟨h1, h2⟩, h3⟩ := h
    rw [stallV2, if_neg (by omega), if_pos h2]
    exact ih t b tEnd h3

theorem stallP0_gaps (T : Nat) :
    ∀ (evs : List (Nat × Nat)) (tPrev tEnd : Nat),
      gapsOk T tPrev evs tEnd = true →
      stallP0 T (tPrev + T) evs tEnd = none := by
  intro evs
  induction evs with
  | nil =>
    intro tPrev tEnd h
    rw [gapsOk] at h
    have h2 := of_decide_eq_true h
    rw [stallP0, if_neg (by omega)]
  | cons e rest ih =>
    intro tPrev tEnd h
    obtain ⟨t, b⟩ := e
    rw [gapsOk] at h
    simp only [Bool.and_eq_true, decide_eq_true_eq] at h
    obtain ⟨h1, h3⟩ := h
    rw [stallP0, if_neg (by omega)]
    exact ih t tEnd h3

/-- C6 (amended): in the v2 will-download handler the stall timer is
armed at transfer start and re-armed exactly when new bytes are
observed: a transfer with no new bytes is cancelled one timeout after
its last progress, and a steadily progressing transfer — however slowly
the bytes trickle in — is never cancelled.  The part_000 handler instead
re-arms on every progressing update without reading the byte count, so
it never cancels a transfer whose updated events keep firing within the
timeout even when no new bytes ever arrive (see the counterexample);
the first variant's downloadFile has no stall timer at all. -/
theorem c6_stall_timer_amended :
    (∀ (T t0 tEnd : Nat) (evs : List (Nat × Nat)),
        (∀ p ∈ evs, p.2 = 0) → t0 + T < tEnd →
        stallV2 T (t0 + T) 0 evs tEnd = some (t0 + T))
      ∧ (∀ (T tPrev lb tEnd : Nat) (evs : List (Nat × Nat)),
          steady T tPrev lb evs tEnd = true →
          stallV2 T (tPrev + T) lb evs tEnd = none)
      ∧ (∀ (T tPrev tEnd : Nat) (evs : List (Nat × Nat)),
          gapsOk T tPrev evs tEnd = true →
          stallP0 T (tPrev + T) evs tEnd = none) :=
  ⟨fun T t0 tEnd evs h ht => stallV2_no_bytes T t0 tEnd evs h ht,
   fun T tPrev lb tEnd evs h => stallV2_steady T evs tPrev lb tEnd h,
   fun T tPrev tEnd evs h => stallP0_gaps T evs tPrev tEnd h⟩

/-- C6 witness: a byteless transfer is cancelled by the v2 timer, a
steady transfer is not, and part_000 tolerates progress-less updates. -/
theorem c6_stall_timer_amended_witness :
    stallV2 5 (0 + 5) 0 [(2, 0)] 10 = some (0 + 5)
      ∧ stallV2 5 (0 + 5) 0 [(3, 4), (6, 9)] 10 = none
      ∧ stallP0 5 (0 + 5) [(4, 0), (8, 0)] 12 = none :=
  ⟨c6_stall_timer_amended.1 5 0 10 [(2, 0)] (by decide) (by decide),
   c6_stall_timer_amended.2.1 5 0 0 10 [(3, 4), (6, 9)] (by decide),
   c6_stall_timer_amended.2.2 5 0 12 [(4, 0), (8, 0)] (by decide)⟩

/-- C6 counterexample: in the part_000 handler, a transfer that receives
no bytes at all for 80 seconds — far beyond the 30-second stall timeout —
is never cancelled, because progressing updated events keep re-arming the
timer without any byte-count check; this refutes the claim that for
every transfer no new bytes within the stall timeout forces
cancellation. -/
theorem c6_counterexample :
    stallP0 (DOWNLOAD_TIMEOUT_SECONDS * 1000) (0 + DOWNLOAD_TIMEOUT_SECONDS * 1000)
        [(20000, 0), (40000, 0), (60000, 0)] 80000 = none
      ∧ (∀ p ∈ [((20000 : Nat), (0 : Nat)), (40000, 0), (60000, 0)], p.2 = 0)
      ∧ 0 + DOWNLOAD_TIMEOUT_SECONDS * 1000 < 80000 := by decide

/-! ## C7: the dedup filters -/

/-- The extension stripping of startScraping:
`file.replace(/\.[^\/.]+$/, "")` — drop the final dot-segment when it is
nonempty and contains neither a dot nor a slash. -/
def stripExt (s : String) : String :=
  let rev := s.data.reverse
  let ext := rev.takeWhile fun c => c != '.' && c != '/'
  match rev.drop ext.length with
  | '.' :: restBase => if ext.length = 0 then s else String.mk restBase.reverse
  | _ => s

/-- The once-per-run snapshot of startScraping: the names returned by one
readdir of the destination directory, extensions stripped. -/
def existingFileBases (names : List String) : List String := names.map stripExt

/-- A renderer download candidate: url, extension-free base name, and the
suffix appended to build the requested filename. -/
structure DlCandidate where
  url : String
  baseName : String
  sfx : String
  deriving DecidableEq

/-- The renderer filter:
`potentialDownloads.filter(dl => !downloadedFileBases.has(dl.baseName))`. -/
def downloadsToRequest (bases : List String) (pot : List DlCandidate) :
    List DlCandidate :=
  pot.filter fun dl => !(bases.contains dl.baseName)

/-- The v1 addToQueue dedup decision: skip iff the exact filename,
extension included, already exists in OUTPUT_DIR. -/
inductive QueueDecision where
  | skip
  | enqueue
  deriving DecidableEq

def addToQueueDecision (files : List String) (filename : String) : QueueDecision :=
  if filename ∈ files then .skip else .enqueue

/-- C7 (amended): the v2 pipeline computes the extension-stripped base
name set once per run and the renderer never requests a candidate whose
base name is in it; the v1 pipeline's addToQueue — the filter that
increments skippedCount — instead tests the destination for the exact
filename with its extension, skipping (skippedCount + 1, never queued)
exactly when that full name is present. -/
theorem c7_dedup_amended :
    (∀ (names : List String) (pot : List DlCandidate) (dl : DlCandidate),
        dl ∈ downloadsToRequest (existingFileBases names) pot →
          dl.baseName ∉ existingFileBases names)
      ∧ (∀ (bases : List String) (pot : List DlCandidate) (dl : DlCandidate),
          dl.baseName ∈ bases → dl ∉ downloadsToRequest bases pot)
      ∧ (∀ (files : List String) (filename : String) (d k : Nat),
          filename ∈ files →
            addToQueueDecision files filename = .skip
              ∧ addToQueueStep ⟨files, d, k⟩ filename = ⟨files, d, k + 1⟩)
      ∧ (∀ (files : List String) (filename : String),
          filename ∉ files → addToQueueDecision files filename = .enqueue) := by
  refine ⟨?_, ?_, ?_, ?_⟩
  · intro names pot dl hmem
    have h := List.of_mem_filter hmem
    simpa using h
  · intro bases pot dl hb hcon
    have h := List.of_mem_filter hcon
    simp [hb] at h
  · intro files filename d k hmem
    constructor
    · simp [addToQueueDecision, hmem]
    · simp [addToQueueStep, hmem]
  · intro files filename hmem
    simp [addToQueueDecision, hmem]

/-- C7 witness: a candidate whose base name is cached is not requested by
the renderer, and an exact-name hit is skipped by addToQueue. -/
theorem c7_dedup_amended_witness :
    (⟨"u", "grok-image-1", ".tmp"⟩ : DlCandidate)
        ∉ downloadsToRequest (existingFileBases ["grok-image-1.png"])
            [⟨"u", "grok-image-1", ".tmp"⟩]
      ∧ addToQueueDecision ["a.jpg"] "a.jpg" = .skip :=
  ⟨c7_dedup_amended.2.1 (existingFileBases ["grok-image-1.png"])
      [⟨"u", "grok-image-1", ".tmp"⟩] ⟨"u", "grok-image-1", ".tmp"⟩ (by decide),
   (c7_dedup_amended.2.2.1 ["a.jpg"] "a.jpg" 0 0 (by decide)).1⟩

/-- C7 counterexample: grok-image-1.png is already in the destination,
so the extension-independent base name grok-image-1 is present; yet the
skippedCount-incrementing dedup filter (addToQueue) checks the exact
filename grok-image-1.jpg, finds nothing, and enqueues the candidate —
refuting the claim that every candidate is answered by an
extension-independent base-name membership test. -/
theorem c7_counterexample :
    addToQueueDecision ["grok-image-1.png"] "grok-image-1.jpg" = .enqueue
      ∧ addToQueueStep ⟨["grok-image-1.png"], 0, 0⟩ "grok-image-1.jpg"
          = ⟨["grok-image-1.png", "grok-image-1.jpg"], 1, 0⟩
      ∧ stripExt "grok-image-1.jpg" ∈ existingFileBases ["grok-image-1.png"] := by
  decide

/-! ## C8: backpressure watermarks of the v2 harvester -/

def MAX_CONCURRENT_DOWNLOADS : Nat := 25

def DOWNLOAD_RESUME_THRESHOLD : Nat := 10

/-- Backpressure-relevant state: the size of the activeDownloads map and
the renderer flag window.__SCRAPING_PAUSED. -/
structure BPState where
  size : Nat
  paused : Bool
  deriving DecidableEq

/-- Events touching the backpressure signal:
`track` — the renderer requests a new download (map insert);
`willDownload` — a download starts, running the pause check
`activeDownloads.size > MAX_CONCURRENT_DOWNLOADS`;
`doneCompleted` / `doneGaveUp` — the entry is deleted, then the resume
check runs; `doneRetry` — the retry branch returns early, skipping the
resume check; `doneCancelled` — no delete, resume check runs. -/
inductive BPEvent where
  | track
  | willDownload
  | doneCompleted
  | doneRetry
  | doneGaveUp
  | doneCancelled
  deriving DecidableEq

/-- The resume check at the bottom of the done handler:
`if (activeDownloads.size < DOWNLOAD_RESUME_THRESHOLD) paused := false`. -/
def resumeCheck (s : BPState) : BPState :=
  if s.size < DOWNLOAD_RESUME_THRESHOLD then { s with paused := false } else s

/-- One backpressure-relevant transition of the v2 will-download /
done handlers. -/
def bpStep (s : BPState) : BPEvent → Option BPState
  | .track => some { s with size := s.size + 1 }
  | .willDownload =>
    if MAX_CONCURRENT_DOWNLOADS < s.size then some { s with paused := true } else some s
  | .doneCompleted =>
    if s.size = 0 then none else some (resumeCheck { s with size := s.size - 1 })
  | .doneRetry => if s.size = 0 then none else some s
  | .doneGaveUp =>
    if s.size = 0 then none else some (resumeCheck { s with size := s.size - 1 })
  | .doneCancelled => if s.size = 0 then none else some (resumeCheck s)

theorem resumeCheck_spec (u : BPState) :
    (resumeCheck u).size = u.size
      ∧ ((resumeCheck u).paused = true → u.paused = true)
      ∧ (u.paused = true → (resumeCheck u).paused = false →
          u.size < DOWNLOAD_RESUME_THRESHOLD)
      ∧ (DOWNLOAD_RESUME_THRESHOLD ≤ u.size → (resumeCheck u).paused = u.paused) := by
  rw [resumeCheck]
  split
  · next hlt =>
    refine ⟨rfl, ?_, fun _ _ => hlt, fun hge => absurd hlt (by omega)⟩
    intro hcon
    exact absurd hcon (by exact Bool.false_ne_true)
  · next hge =>
    refine ⟨rfl, fun hp => hp, ?_, fun _ => rfl⟩
    intro h1 h2
    rw [h1] at h2
    exact Bool.noConfusion h2

/-- C8: once the pause flag is raised because the tracked-download count
exceeded MAX_CONCURRENT_DOWNLOADS, no transition clears it until the
count is below DOWNLOAD_RESUME_THRESHOLD; from any state whose load lies
strictly between the two watermarks no transition changes the flag; and
the flag is only ever raised when the load exceeds the high watermark. -/
theorem c8_backpressure_hysteresis (s s' : BPState) (e : BPEvent)
    (h : bpStep s e = some s') :
    (s.paused = true → s'.paused = false → s'.size < DOWNLOAD_RESUME_THRESHOLD)
      ∧ (DOWNLOAD_RESUME_THRESHOLD < s.size → s.size ≤ MAX_CONCURRENT_DOWNLOADS →
          s'.paused = s.paused)
      ∧ (s.paused = false → s'.paused = true → MAX_CONCURRENT_DOWNLOADS < s.size) := by
  cases e with
  | track =>
    injection h with h
    subst h
    exact ⟨fun h1 h2 => by rw [h1] at h2; exact Bool.noConfusion h2, fun _ _ => rfl,
           fun h1 h2 => by rw [h1] at h2; exact Bool.noConfusion h2⟩
  | willDownload =>
    rw [bpStep] at h
    split at h
    · next hgt =>
      injection h with h
      subst h
      exact ⟨fun _ h2 => Bool.noConfusion h2, fun _ hhi => absurd hgt (by omega),
             fun _ _ => hgt⟩
    · next hle =>
      injection h with h
      subst h
      exact ⟨fun h1 h2 => by rw [h1] at h2; exact Bool.noConfusion h2, fun _ _ => rfl,
             fun h1 h2 => by rw [h1] at h2; exact Bool.noConfusion h2⟩
  | doneCompleted =>
    rw [bpStep] at h
    split at h
    · cases h
    · next hnz =>
      injection h with h
      subst h
      obtain ⟨hsz, hpt, hpf, hpe⟩ := resumeCheck_spec { s with size := s.size - 1 }
      refine ⟨?_, ?_, ?_⟩
      · intro h1 h2
        rw [hsz]
        exact hpf h1 h2
      · intro hlo hhi
        exact hpe (show DOWNLOAD_RESUME_THRESHOLD ≤ s.size - 1 by omega)
      · intro h1 h2
        have := hpt h2
        rw [h1] at this
        exact Bool.noConfusion this
  | doneRetry =>
    rw [bpStep] at h
    split at h
    · cases h
    · injection h with h
      subst h
      exact ⟨fun h1 h2 => by rw [h1] at h2; exact Bool.noConfusion h2, fun _ _ => rfl,
             fun h1 h2 => by rw [h1] at h2; exact Bool.noConfusion h2⟩
  | doneGaveUp =>
    rw [bpStep] at h
    split at h
    · cases h
    · next hnz =>
      injection h with h
      subst h
      obtain ⟨hsz, hpt, hpf, hpe⟩ := resumeCheck_spec { s with size := s.size - 1 }
      refine ⟨?_, ?_, ?_⟩
      · intro h1 h2
        rw [hsz]
        exact hpf h1 h2
      · intro hlo hhi
        exact hpe (show DOWNLOAD_RESUME_THRESHOLD ≤ s.size - 1 by omega)
      · intro h1 h2
        have := hpt h2
        rw [h1] at this
        exact Bool.noConfusion this
  | doneCancelled =>
    rw [bpStep] at h
    split at h
    · cases h
    · next hnz =>
      injection h with h
      subst h
      obtain ⟨hsz, hpt, hpf, hpe⟩ := resumeCheck_spec s
      refine ⟨?_, ?_, ?_⟩
      · intro h1 h2
        rw [hsz]
        exact hpf h1 h2
      · intro hlo hhi
        exact hpe (by omega)
      · intro h1 h2
        have := hpt h2
        rw [h1] at this
        exact Bool.noConfusion this

/-- C8 witness: starting a download at load 26 raises the pause flag
(26 exceeds the high watermark 25), and a completion that clears the
flag leaves the load 8 below the low watermark 10. -/
theorem c8_backpressure_hysteresis_witness :
    MAX_CONCURRENT_DOWNLOADS < 26 ∧ (8 : Nat) < DOWNLOAD_RESUME_THRESHOLD :=
  ⟨(c8_backpressure_hysteresis ⟨26, false⟩ ⟨26, true⟩ .willDownload (by decide)).2.2
      rfl rfl,
   (c8_backpressure_hysteresis ⟨9, true⟩ ⟨8, false⟩ .doneCompleted (by decide)).1
      rfl rfl⟩

/-! ## C9: the finish handler of downloadFile (v1) -/

/-- Outcome of one post-download filesystem step: returns or throws. -/
inductive StepR where
  | ok
  | err
  deriving DecidableEq

/-- Observable result of the file.on finish handler: the deltas applied
to harvestStats.downloaded and harvestStats.errors, whether a
post-processing warning was printed, where the artifact ends up, and
whether the catch block attempted the best-effort raw rename. -/
structure FinishOutcome where
  downloadedDelta : Nat
  errorsDelta : Nat
  warned : Bool
  tempExists : Bool
  finalExists : Bool
  rawRenameTried : Bool
  deriving DecidableEq

/-- The try/catch of the finish handler in downloadFile (v1), entered
with the temp file present and the final file absent.  embedMetadata
catches its own errors internally (a missing or failing tool is only a
warning), so the failures reaching the outer catch are the rename to the
final path (r1) and the utimes call (ut); r2 is the best-effort raw
rename in the catch, attempted only when the temp file still exists and
the final file does not.  Only the full success path runs
`harvestStats.downloaded++`. -/
def finishHandler (r1 ut r2 : StepR) : FinishOutcome :=
  match r1 with
  | .ok =>
    match ut with
    | .ok => ⟨1, 0, false, false, true, false⟩
    | .err => ⟨0, 0, true, false, true, false⟩
  | .err =>
    match r2 with
    | .ok => ⟨0, 0, true, false, true, true⟩
    | .err => ⟨0, 0, true, true, false, true⟩

/-- C9 (amended): when post-processing fails after a successful download
(the rename to the final path or the utimes call throws), the task
terminates with a warning, is not retried, and errorCount is unchanged;
when the rename failed the catch attempts the best-effort raw rename and
the artifact reaches the final path whenever that rename succeeds (after
a utimes failure the file is already at the final path).  However the
task is NOT counted as completed: harvestStats.downloaded is not
incremented on this path (see the counterexample). -/
theorem c9_postprocess_amended (r1 ut r2 : StepR)
    (hfail : r1 = .err ∨ (r1 = .ok ∧ ut = .err)) :
    (finishHandler r1 ut r2).errorsDelta = 0
      ∧ (finishHandler r1 ut r2).downloadedDelta = 0
      ∧ (finishHandler r1 ut r2).warned = true
      ∧ (r1 = .err → (finishHandler r1 ut r2).rawRenameTried = true)
      ∧ ((r1 = .ok ∨ r2 = .ok) → (finishHandler r1 ut r2).finalExists = true) := by
  rcases hfail with h | ⟨h1, h2⟩
  · subst h
    cases r2 with
    | ok => exact ⟨rfl, rfl, rfl, fun _ => rfl, fun _ => rfl⟩
    | err =>
      refine ⟨rfl, rfl, rfl, fun _ => rfl, ?_⟩
      intro hor
      rcases hor with hc | hc <;> exact StepR.noConfusion hc
  · subst h1
    subst h2
    exact ⟨rfl, rfl, rfl, fun hcon => StepR.noConfusion hcon, fun _ => rfl⟩

/-- C9 witness: a failed final rename leaves errorCount untouched and the
best-effort raw rename saves the artifact at the final path. -/
theorem c9_postprocess_amended_witness :
    (finishHandler .err .ok .ok).errorsDelta = 0
      ∧ (finishHandler .err .ok .ok).finalExists = true :=
  ⟨(c9_postprocess_amended .err .ok .ok (Or.inl rfl)).1,
   (c9_postprocess_amended .err .ok .ok (Or.inl rfl)).2.2.2.2 (Or.inr rfl)⟩

/-- C9 counterexample: when utimes throws after a successful rename, the
handler's catch runs and `harvestStats.downloaded++` is skipped — the
task is not counted as completed (downloadedDelta 0), contradicting the
claim that it still counts as completed; errorCount is untouched and the
artifact does sit at the final path. -/
theorem c9_counterexample :
    (finishHandler .ok .err .ok).downloadedDelta = 0
      ∧ (finishHandler .ok .err .ok).errorsDelta = 0
      ∧ (finishHandler .ok .err .ok).finalExists = true := by decide

/-! ## C10: sanitizePrompt -/

/-- The regex replace `/[\r\n]+/g` with a single space: collapse each
maximal run of carriage returns and line feeds.  The Bool argument
records whether the previous character belonged to such a run. -/
def collapseNewlines : Bool → List Char → List Char
  | _, [] => []
  | inRun, c :: rest =>
    if c = '\r' ∨ c = '\n' then
      (if inRun then [] else [' ']) ++ collapseNewlines true rest
    else c :: collapseNewlines false rest

/-- sanitizePrompt from harvest-grok-imagine-v2.js.  `isWebUrl str`
abstracts `new URL(str)` succeeding with protocol http: or https: (the
WHATWG URL parser is a host API); a missing prompt is none, and `!str`
is true exactly for the empty string.  A non-URL prompt has its CR/LF
runs collapsed to single spaces and is truncated to 2000 characters. -/
def sanitizePrompt (isWebUrl : String → Bool) (s : Option String) : String :=
  match s with
  | none => ""
  | some str =>
    if str = "" then ""
    else if isWebUrl str then ""
    else String.mk ((collapseNewlines false str.data).take 2000)

theorem collapseNewlines_no_crlf :
    ∀ (l : List Char) (b : Bool) (c : Char), c ∈ collapseNewlines b l →
      ¬ c = '\r' ∧ ¬ c = '\n' := by
  intro l
  induction l with
  | nil => intro b c hc; simp [collapseNewlines] at hc
  | cons a rest ih =>
    intro b c hc
    rw [collapseNewlines] at hc
    split at hc
    · rcases List.mem_append.mp hc with hc | hc
      · split at hc
        · simp at hc
        · rw [List.mem_singleton.mp hc]
          exact ⟨by decide, by decide⟩
      · exact ih true c hc
    · next hne =>
      rcases List.mem_cons.mp hc with hc | hc
      · subst hc
        exact ⟨fun hcon => hne (Or.inl hcon), fun hcon => hne (Or.inr hcon)⟩
      · exact ih false c hc

/-- C10: for every input, sanitizePrompt returns at most 2000 characters
and no carriage return or line feed survives; the result is the empty
string when the prompt is missing, empty, or parses as an http/https web
URL — so the Comment field the Post-Processor embeds (pushed only when
the sanitized prompt is nonempty) is never overlong, never multi-line,
and never a bare web URL. -/
theorem c10_sanitize_prompt (isWebUrl : String → Bool) (s : Option String) :
    (sanitizePrompt isWebUrl s).length ≤ 2000
      ∧ (∀ c ∈ (sanitizePrompt isWebUrl s).data, ¬ c = '\r' ∧ ¬ c = '\n')
      ∧ (s = none → sanitizePrompt isWebUrl s = "")
      ∧ (∀ str, s = some str → str = "" → sanitizePrompt isWebUrl s = "")
      ∧ (∀ str, s = some str → isWebUrl str = true → sanitizePrompt isWebUrl s = "") := by
  cases s with
  | none =>
    refine ⟨by show ("" : String).length ≤ 2000; decide, ?_, fun _ => rfl, ?_, ?_⟩
    · intro c hc
      simp [sanitizePrompt] at hc
    · intro str he
      exact Option.noConfusion he
    · intro str he
      exact Option.noConfusion he
  | some str =>
    by_cases h0 : str = ""
    · refine ⟨?_, ?_, ?_, ?_, ?_⟩ <;> simp [sanitizePrompt, h0]
    · by_cases h1 : isWebUrl str = true
      · refine ⟨?_, ?_, ?_, ?_, ?_⟩ <;> simp [sanitizePrompt, h0, h1]
      · have hform : sanitizePrompt isWebUrl (some str)
            = String.mk ((collapseNewlines false str.data).take 2000) := by
          simp [sanitizePrompt, h0, h1]
        refine ⟨?_, ?_, ?_, ?_, ?_⟩
        · rw [hform]
          show ((collapseNewlines false str.data).take 2000).length ≤ 2000
          rw [List.length_take]
          exact min_le_left _ _
        · intro c hc
          rw [hform] at hc
          have hc2 : c ∈ (collapseNewlines false str.data).take 2000 := hc
          exact collapseNewlines_no_crlf str.data false c (List.take_subset _ _ hc2)
        · intro he
          exact Option.noConfusion he
        · intro str2 he h2
          rw [Option.some.inj he] at h0
          exact absurd h2 h0
        · intro str2 he h2
          rw [Option.some.inj he] at h1
          exact absurd h2 h1

/-- C10 witness: a web URL prompt is emptied; a multi-line prompt obeys
the length bound. -/
theorem c10_sanitize_prompt_witness :
    sanitizePrompt (fun str => str == "http://a") (some "http://a") = ""
      ∧ (sanitizePrompt (fun str => str == "http://a")
          (some "line1\nline2")).length ≤ 2000 :=
  ⟨(c10_sanitize_prompt (fun str => str == "http://a")
      (some "http://a")).2.2.2.2 "http://a" rfl (by decide),
   (c10_sanitize_prompt (fun str => str == "http://a") (some "line1\nline2")).1⟩
